import Mathlib

/-!
# Verification of the pngme chunk codec

Shallow embedding of `src/chunk_type.rs` and `src/chunk.rs`: a PNG-style
chunk codec (4-byte ASCII type tag, length-prefixed payload, CRC-32
ISO-HDLC checksum), together with proofs of the specified properties.

Bytes are modelled as `Nat` (values `< 256` where a claim needs it),
byte buffers as `List Nat`, and `u32` values as `Nat` reduced modulo
`2 ^ 32` where the Rust code casts.
-/

set_option maxRecDepth 20000

namespace Pngme

/-- Error taxonomy: the union of `ChunkTypeError`, `ChunkError` and the
short-read I/O failures surfaced by the Rust code through `anyhow::Error`. -/
inductive PngError where
  /-- Failure of `read_exact` at the end of the buffer. -/
  | shortRead : PngError
  /-- Error `ChunkTypeError::InvalidEncoding`: a tag byte is outside ASCII. -/
  | invalidEncoding : PngError
  /-- Error `ChunkTypeError::InvalidLength { found }`: textual tag construction
  got a string whose byte length is not 4 (`found` = that byte length). -/
  | tagInvalidLength (found : Nat) : PngError
  /-- Error `ChunkError::InvalidLength { actual, found }`. -/
  | invalidLength (actual found : Nat) : PngError
  /-- Error `ChunkError::InvalidCrc { actual, found }`. -/
  | invalidCrc (actual found : Nat) : PngError
deriving DecidableEq, Repr

/-- Rust `ChunkType` from `src/chunk_type.rs`: wraps the 4 tag bytes
(modelled as a list; the Rust type is `[u8; 4]`). -/
structure ChunkType where
  bytes : List Nat
deriving DecidableEq, Repr

/-- Predicate `u8::is_ascii` lifted to a byte list: every byte is `≤ 0x7F`
(`<[u8]>::is_ascii` in `ChunkType::try_from`). -/
def isAsciiList (l : List Nat) : Bool :=
  l.all (fun b => b ≤ 0x7F)

/-- Rust `ChunkType::try_from(value: [u8; 4])`: accept iff all bytes are ASCII. -/
def ChunkType.tryFrom (value : List Nat) : Except PngError ChunkType :=
  if isAsciiList value then .ok ⟨value⟩ else .error .invalidEncoding

/-- Rust `ChunkType::from_str`: fail with `InvalidLength` when the byte length
of the string is not 4, otherwise delegate to `ChunkType.tryFrom`.
The input is the UTF-8 byte sequence of the string. -/
def ChunkType.fromStr (s : List Nat) : Except PngError ChunkType :=
  if s.length = 4 then ChunkType.tryFrom s
  else .error (.tagInvalidLength s.length)

/-- Rust `ChunkType::is_critical`: byte 0 is ASCII uppercase. -/
def ChunkType.is_critical (t : ChunkType) : Bool :=
  65 ≤ t.bytes.getD 0 0 && t.bytes.getD 0 0 ≤ 90

/-- Rust `ChunkType::is_public`: byte 1 is ASCII uppercase. -/
def ChunkType.is_public (t : ChunkType) : Bool :=
  65 ≤ t.bytes.getD 1 0 && t.bytes.getD 1 0 ≤ 90

/-- Rust `ChunkType::is_reserved_bit_valid`: byte 2 is ASCII uppercase. -/
def ChunkType.is_reserved_bit_valid (t : ChunkType) : Bool :=
  65 ≤ t.bytes.getD 2 0 && t.bytes.getD 2 0 ≤ 90

/-- Rust `ChunkType::is_safe_to_copy`: byte 3 is ASCII lowercase. -/
def ChunkType.is_safe_to_copy (t : ChunkType) : Bool :=
  97 ≤ t.bytes.getD 3 0 && t.bytes.getD 3 0 ≤ 122

/-- One step of the standard UTF-8 decoder (RFC 3629): decode the first
scalar value of the byte sequence, returning the code point and the rest,
or `none` when the head is not a well-formed sequence. -/
def utf8DecodeStep (l : List Nat) : Option (Nat × List Nat) :=
  match l with
  | [] => none
  | b :: rest =>
    if b < 0x80 then some (b, rest)
    else if 0xC2 ≤ b ∧ b ≤ 0xDF then
      match rest with
      | c1 :: r =>
        if 0x80 ≤ c1 ∧ c1 ≤ 0xBF then
          some ((b - 0xC0) * 64 + (c1 - 0x80), r)
        else none
      | [] => none
    else if 0xE0 ≤ b ∧ b ≤ 0xEF then
      match rest with
      | c1 :: c2 :: r =>
        if (0x80 ≤ c1 ∧ c1 ≤ 0xBF) ∧ (0x80 ≤ c2 ∧ c2 ≤ 0xBF) then
          if 0x800 ≤ ((b - 0xE0) * 64 + (c1 - 0x80)) * 64 + (c2 - 0x80) ∧
              ¬(0xD800 ≤ ((b - 0xE0) * 64 + (c1 - 0x80)) * 64 + (c2 - 0x80) ∧
                ((b - 0xE0) * 64 + (c1 - 0x80)) * 64 + (c2 - 0x80) ≤ 0xDFFF) then
            some (((b - 0xE0) * 64 + (c1 - 0x80)) * 64 + (c2 - 0x80), r)
          else none
        else none
      | _ => none
    else if 0xF0 ≤ b ∧ b ≤ 0xF4 then
      match rest with
      | c1 :: c2 :: c3 :: r =>
        if (0x80 ≤ c1 ∧ c1 ≤ 0xBF) ∧ (0x80 ≤ c2 ∧ c2 ≤ 0xBF) ∧ (0x80 ≤ c3 ∧ c3 ≤ 0xBF) then
          if 0x10000 ≤ (((b - 0xF0) * 64 + (c1 - 0x80)) * 64 + (c2 - 0x80)) * 64 + (c3 - 0x80) ∧
              (((b - 0xF0) * 64 + (c1 - 0x80)) * 64 + (c2 - 0x80)) * 64 + (c3 - 0x80) ≤ 0x10FFFF then
            some ((((b - 0xF0) * 64 + (c1 - 0x80)) * 64 + (c2 - 0x80)) * 64 + (c3 - 0x80), r)
          else none
        else none
      | _ => none
    else none

theorem utf8DecodeStep_length : ∀ {l : List Nat} {cp : Nat} {r : List Nat},
    utf8DecodeStep l = some (cp, r) → r.length < l.length := by
  intro l cp r h
  match l with
  | [] => simp [utf8DecodeStep] at h
  | b :: rest =>
    simp only [utf8DecodeStep] at h
    repeat' split at h
    all_goals try simp at h
    all_goals
      obtain ⟨h1, h2⟩ := h
      subst h2
      simp only [List.length_cons]
      omega

/-- The standard UTF-8 decoder: repeatedly decode one scalar; succeed
with the list of code points iff the whole input is well-formed.  Models
`std::str::from_utf8` as used by `Display for ChunkType`. -/
def utf8Decode (l : List Nat) : Option (List Nat) :=
  match l with
  | [] => some []
  | b :: rest =>
    match hstep : utf8DecodeStep (b :: rest) with
    | none => none
    | some (cp, r) => (utf8Decode r).map (fun cps => cp :: cps)
termination_by l.length
decreasing_by exact utf8DecodeStep_length hstep

/-- Rendering (`Display for ChunkType`): the code points rendered, with the
fallback `"\u{FFFD}".repeat(4)` when the 4 bytes are not valid UTF-8. -/
def ChunkType.render (t : ChunkType) : List Nat :=
  match utf8Decode t.bytes with
  | some cps => cps
  | none => List.replicate 4 0xFFFD

/-- The reflected CRC-32 (ISO-HDLC / IEEE 802.3) polynomial. -/
def CRC_POLY : Nat := 0xEDB88320

/-- One bit-step of the reflected CRC-32 register update. -/
def crcStep (s : Nat) : Nat :=
  if s % 2 = 1 then (s / 2) ^^^ CRC_POLY else s / 2

/-- Absorb one input byte into the CRC register: xor it in, then run
eight bit-steps. -/
def crcByte (s b : Nat) : Nat :=
  crcStep^[8] (s ^^^ b)

/-- Run the CRC register over a byte sequence. -/
def crcUpdate (s : Nat) (l : List Nat) : Nat :=
  l.foldl crcByte s

/-- Checksum `Crc::<u32>::new(&crc::CRC_32_ISO_HDLC).checksum`: initial value
`0xFFFFFFFF`, reflected update, final xor `0xFFFFFFFF`. -/
def crc32 (l : List Nat) : Nat :=
  crcUpdate 0xFFFFFFFF l ^^^ 0xFFFFFFFF

/-- Rust `Chunk` from `src/chunk.rs`: stored length, tag, payload and crc. -/
structure Chunk where
  length : Nat
  chunk_type : ChunkType
  chunk_data : List Nat
  crc : Nat
deriving DecidableEq, Repr

/-- Rust `Chunk::new`: derive `length = data.len() as u32` (the Rust cast
truncates modulo `2 ^ 32`) and `crc = CRC32(tag bytes ++ data)`. -/
def Chunk.new (chunk_type : ChunkType) (chunk_data : List Nat) : Chunk :=
  { length := chunk_data.length % 2 ^ 32
  , chunk_type := chunk_type
  , chunk_data := chunk_data
  , crc := crc32 (chunk_type.bytes ++ chunk_data) }

/-- Big-endian decode `u32::from_be_bytes` on a 4-byte list. -/
def u32FromBe (l : List Nat) : Nat :=
  l.foldl (fun acc b => acc * 256 + b) 0

/-- Big-endian encode `u32::to_be_bytes`. -/
def u32ToBe (n : Nat) : List Nat :=
  [n / 2 ^ 24 % 256, n / 2 ^ 16 % 256, n / 2 ^ 8 % 256, n % 256]

/-- Rust `Chunk::try_from(&[u8])`: sequential `read_exact` calls over the
buffer (4 length bytes, 4 tag bytes, `length` payload bytes, 4 crc
bytes), then the defensive length check and the crc check; on success
the *declared* length and crc are stored. -/
def Chunk.tryFrom (value : List Nat) : Except PngError Chunk :=
  if 4 ≤ value.length then
    let length := u32FromBe (value.take 4)
    let r1 := value.drop 4
    if 4 ≤ r1.length then
      match ChunkType.tryFrom (r1.take 4) with
      | .error e => .error e
      | .ok chunk_type =>
        let r2 := r1.drop 4
        if length ≤ r2.length then
          let chunk_data := r2.take length
          let r3 := r2.drop length
          if 4 ≤ r3.length then
            let crc := u32FromBe (r3.take 4)
            let chunk := Chunk.new chunk_type chunk_data
            if chunk.length ≠ length then
              .error (.invalidLength chunk.length length)
            else if chunk.crc ≠ crc then
              .error (.invalidCrc chunk.crc crc)
            else
              .ok { length := length, chunk_type := chunk_type
                  , chunk_data := chunk_data, crc := crc }
          else .error .shortRead
        else .error .shortRead
    else .error .shortRead
  else .error .shortRead

/-- Rust `Chunk::as_bytes`: big-endian length, tag bytes, payload, big-endian crc. -/
def Chunk.as_bytes (c : Chunk) : List Nat :=
  u32ToBe c.length ++ c.chunk_type.bytes ++ c.chunk_data ++ u32ToBe c.crc

/-! ## Helper lemmas: big-endian encoding -/

theorem u32ToBe_length (n : Nat) : (u32ToBe n).length = 4 := rfl

theorem u32ToBe_mem_lt (n : Nat) : ∀ x ∈ u32ToBe n, x < 256 := by
  intro x hx
  simp only [u32ToBe, List.mem_cons, List.not_mem_nil, or_false] at hx
  rcases hx with h | h | h | h <;> subst h <;> omega

theorem u32FromBe_toBe {n : Nat} (h : n < 2 ^ 32) : u32FromBe (u32ToBe n) = n := by
  simp only [u32FromBe, u32ToBe, List.foldl]
  omega

theorem exists_four {α : Type} : ∀ (l : List α), l.length = 4 → ∃ a b c d, l = [a, b, c, d]
  | [a, b, c, d], _ => ⟨a, b, c, d, rfl⟩
  | [], h => by simp at h
  | [_], h => by simp at h
  | [_, _], h => by simp at h
  | [_, _, _], h => by simp at h
  | _ :: _ :: _ :: _ :: _ :: _, h => by simp at h

theorem u32ToBe_fromBe {l : List Nat} (h4 : l.length = 4) (hb : ∀ x ∈ l, x < 256) :
    u32ToBe (u32FromBe l) = l := by
  obtain ⟨a, b, c, d, rfl⟩ := exists_four l h4
  have ha : a < 256 := hb a (by simp)
  have hbb : b < 256 := hb b (by simp)
  have hc : c < 256 := hb c (by simp)
  have hd : d < 256 := hb d (by simp)
  simp only [u32FromBe, u32ToBe, List.foldl, List.cons.injEq, and_true]
  refine ⟨by omega, by omega, by omega, by omega⟩

theorem u32FromBe_lt {l : List Nat} (h4 : l.length = 4) (hb : ∀ x ∈ l, x < 256) :
    u32FromBe l < 2 ^ 32 := by
  obtain ⟨a, b, c, d, rfl⟩ := exists_four l h4
  have ha : a < 256 := hb a (by simp)
  have hbb : b < 256 := hb b (by simp)
  have hc : c < 256 := hb c (by simp)
  have hd : d < 256 := hb d (by simp)
  simp only [u32FromBe, List.foldl]
  omega

/-! ## Helper lemmas: list access -/

theorem getD_eq_getElem {α : Type} {l : List α} {n : Nat} (h : n < l.length) (d : α) :
    l.getD n d = l[n] := by
  simp [List.getD_eq_getElem?_getD, List.getElem?_eq_getElem h]

/-! ## Helper lemmas: the CRC-32 register is injective in its state -/

theorem xor_ne_self {x p : Nat} (hp : p ≠ 0) : x ^^^ p ≠ x := by
  intro h
  have := congrArg (fun z => x ^^^ z) h
  simp only [← Nat.xor_assoc, Nat.xor_self, Nat.zero_xor, Nat.xor_zero] at this
  rw [Nat.xor_comm] at h
  have h2 := congrArg (fun z => z ^^^ x) h
  simp only [Nat.xor_assoc, Nat.xor_self, Nat.xor_zero] at h2
  exact hp h2

theorem xor_left_cancel {a x y : Nat} (h : a ^^^ x = a ^^^ y) : x = y := by
  have := congrArg (fun z => a ^^^ z) h
  simpa only [← Nat.xor_assoc, Nat.xor_self, Nat.zero_xor] using this

theorem xor_right_cancel {a x y : Nat} (h : x ^^^ a = y ^^^ a) : x = y := by
  have := congrArg (fun z => z ^^^ a) h
  simpa only [Nat.xor_assoc, Nat.xor_self, Nat.xor_zero] using this

theorem crcStep_lt {s : Nat} (h : s < 2 ^ 32) : crcStep s < 2 ^ 32 := by
  unfold crcStep
  split
  · exact Nat.xor_lt_two_pow (by omega) (by norm_num [CRC_POLY])
  · omega

theorem xor_poly_ge {a : Nat} (h : a < 2 ^ 31) : 2 ^ 31 ≤ a ^^^ CRC_POLY := by
  refine Nat.testBit_implies_ge ?_
  rw [Nat.testBit_xor, Nat.testBit_lt_two_pow h]
  decide

theorem crcStep_inj {s₁ s₂ : Nat} (h₁ : s₁ < 2 ^ 32) (h₂ : s₂ < 2 ^ 32)
    (he : crcStep s₁ = crcStep s₂) : s₁ = s₂ := by
  unfold crcStep at he
  rcases Nat.mod_two_eq_zero_or_one s₁ with hp₁ | hp₁ <;>
    rcases Nat.mod_two_eq_zero_or_one s₂ with hp₂ | hp₂ <;>
      rw [hp₁, hp₂] at he <;> norm_num at he
  · omega
  · have hge := xor_poly_ge (a := s₂ / 2) (by omega)
    omega
  · have hge := xor_poly_ge (a := s₁ / 2) (by omega)
    omega
  · omega

theorem crcStepIter_lt (n : Nat) {s : Nat} (h : s < 2 ^ 32) : crcStep^[n] s < 2 ^ 32 := by
  induction n generalizing s with
  | zero => simpa using h
  | succ n ih =>
    rw [Function.iterate_succ_apply]
    exact ih (crcStep_lt h)

theorem crcStepIter_inj (n : Nat) {s₁ s₂ : Nat} (h₁ : s₁ < 2 ^ 32) (h₂ : s₂ < 2 ^ 32)
    (he : crcStep^[n] s₁ = crcStep^[n] s₂) : s₁ = s₂ := by
  induction n generalizing s₁ s₂ with
  | zero => simpa using he
  | succ n ih =>
    rw [Function.iterate_succ_apply, Function.iterate_succ_apply] at he
    exact crcStep_inj h₁ h₂ (ih (crcStep_lt h₁) (crcStep_lt h₂) he)

theorem crcByte_lt {s b : Nat} (hs : s < 2 ^ 32) (hb : b < 2 ^ 32) :
    crcByte s b < 2 ^ 32 :=
  crcStepIter_lt 8 (Nat.xor_lt_two_pow hs hb)

theorem crcByte_inj {s₁ s₂ b : Nat} (h₁ : s₁ < 2 ^ 32) (h₂ : s₂ < 2 ^ 32)
    (hb : b < 2 ^ 32) (he : crcByte s₁ b = crcByte s₂ b) : s₁ = s₂ := by
  have := crcStepIter_inj 8 (Nat.xor_lt_two_pow h₁ hb) (Nat.xor_lt_two_pow h₂ hb) he
  exact xor_right_cancel this

theorem crcUpdate_lt {l : List Nat} {s : Nat} (hs : s < 2 ^ 32)
    (hl : ∀ x ∈ l, x < 2 ^ 32) : crcUpdate s l < 2 ^ 32 := by
  induction l generalizing s with
  | nil => simpa [crcUpdate] using hs
  | cons b l ih =>
    simp only [crcUpdate, List.foldl_cons] at *
    exact ih (crcByte_lt hs (hl b (by simp))) (fun x hx => hl x (by simp [hx]))

theorem crcUpdate_inj {l : List Nat} {s₁ s₂ : Nat} (h₁ : s₁ < 2 ^ 32) (h₂ : s₂ < 2 ^ 32)
    (hl : ∀ x ∈ l, x < 2 ^ 32) (he : crcUpdate s₁ l = crcUpdate s₂ l) : s₁ = s₂ := by
  induction l generalizing s₁ s₂ with
  | nil => simpa [crcUpdate] using he
  | cons b l ih =>
    have hb : b < 2 ^ 32 := hl b (by simp)
    simp only [crcUpdate, List.foldl_cons] at he
    have := ih (crcByte_lt h₁ hb) (crcByte_lt h₂ hb) (fun x hx => hl x (by simp [hx])) he
    exact crcByte_inj h₁ h₂ hb this

theorem crc32_lt {l : List Nat} (hl : ∀ x ∈ l, x < 256) : crc32 l < 2 ^ 32 := by
  unfold crc32
  refine Nat.xor_lt_two_pow ?_ (by norm_num)
  exact crcUpdate_lt (by norm_num) (fun x hx => lt_trans (hl x hx) (by norm_num))

/-! ## A changed byte changes the checksum -/

theorem crcByte_ne {s x y : Nat} (hs : s < 2 ^ 32) (hx : x < 2 ^ 32) (hy : y < 2 ^ 32)
    (hxy : x ≠ y) : crcByte s x ≠ crcByte s y := by
  intro he
  have := crcStepIter_inj 8 (Nat.xor_lt_two_pow hs hx) (Nat.xor_lt_two_pow hs hy) he
  exact hxy (xor_left_cancel this)

theorem crc32_ne_middle {p q : List Nat} {x y : Nat}
    (hp : ∀ z ∈ p, z < 2 ^ 32) (hq : ∀ z ∈ q, z < 2 ^ 32)
    (hx : x < 2 ^ 32) (hy : y < 2 ^ 32) (hxy : x ≠ y) :
    crc32 (p ++ x :: q) ≠ crc32 (p ++ y :: q) := by
  intro he
  unfold crc32 at he
  have he' := xor_right_cancel he
  unfold crcUpdate at he'
  rw [List.foldl_append, List.foldl_append, List.foldl_cons, List.foldl_cons] at he'
  have hs : List.foldl crcByte 0xFFFFFFFF p < 2 ^ 32 := crcUpdate_lt (by norm_num) hp
  exact crcByte_ne hs hx hy hxy
    (crcUpdate_inj (crcByte_lt hs hx) (crcByte_lt hs hy) hq he')

theorem crc32_ne_set {pre l : List Nat} {j v : Nat} (hj : j < l.length)
    (hpre : ∀ z ∈ pre, z < 2 ^ 32) (hl : ∀ z ∈ l, z < 2 ^ 32)
    (hv : v < 2 ^ 32) (hne : v ≠ l[j]) :
    crc32 (pre ++ l.set j v) ≠ crc32 (pre ++ l) := by
  intro he
  rw [List.set_eq_take_cons_drop v hj] at he
  conv at he =>
    rhs
    rw [show l = l.take j ++ l[j] :: l.drop (j + 1) by
      conv_lhs => rw [← List.take_append_drop j l]
      rw [List.drop_eq_getElem_cons hj]]
  rw [← List.append_assoc, ← List.append_assoc] at he
  refine crc32_ne_middle (p := pre ++ l.take j) (q := l.drop (j + 1))
    ?_ ?_ hv ?_ hne he
  · intro z hz
    rcases List.mem_append.mp hz with h | h
    · exact hpre z h
    · exact hl z (List.take_subset _ _ h)
  · exact fun z hz => hl z (List.drop_subset _ _ hz)
  · exact hl _ (List.getElem_mem hj)



theorem tryFrom_layout (t : ChunkType) (d : List Nat) (w : Nat) (extra : List Nat)
    (ht4 : t.bytes.length = 4) (hta : isAsciiList t.bytes = true)
    (hd : d.length < 2 ^ 32) (hw : w < 2 ^ 32) :
    Chunk.tryFrom (u32ToBe d.length ++ (t.bytes ++ (d ++ (u32ToBe w ++ extra)))) =
      if crc32 (t.bytes ++ d) = w then
        .ok { length := d.length, chunk_type := t, chunk_data := d, crc := w }
      else
        .error (.invalidCrc (crc32 (t.bytes ++ d)) w) := by
  simp only [Chunk.tryFrom]
  rw [List.drop_left' (u32ToBe_length d.length), List.take_left' (u32ToBe_length d.length),
    u32FromBe_toBe hd]
  rw [List.take_left' ht4, List.drop_left' ht4]
  rw [List.take_left, List.drop_left]
  rw [List.take_left' (u32ToBe_length w), u32FromBe_toBe hw]
  simp only [ChunkType.tryFrom, hta, if_true]
  have hc1 : 4 ≤ (u32ToBe d.length ++ (t.bytes ++ (d ++ (u32ToBe w ++ extra)))).length := by
    simp [u32ToBe]
  have hc2 : 4 ≤ (t.bytes ++ (d ++ (u32ToBe w ++ extra))).length := by
    simp [ht4]
  have hc3 : d.length ≤ (d ++ (u32ToBe w ++ extra)).length := by
    simp
  have hc4 : 4 ≤ (u32ToBe w ++ extra).length := by
    simp [u32ToBe]
  rw [if_pos hc1, if_pos hc2, if_pos hc3, if_pos hc4]
  simp only [Chunk.new, Nat.mod_eq_of_lt hd, ne_eq, not_true_eq_false, if_false]
  by_cases hcw : crc32 (t.bytes ++ d) = w <;> simp [hcw]

theorem tryFrom_ok_spec {b : List Nat} {c : Chunk}
    (hb : ∀ x ∈ b, x < 256) (h : Chunk.tryFrom b = .ok c) :
    c.length = c.chunk_data.length ∧
    c.chunk_data.length < 2 ^ 32 ∧
    c.crc = crc32 (c.chunk_type.bytes ++ c.chunk_data) ∧
    c.crc < 2 ^ 32 ∧
    c.chunk_type.bytes.length = 4 ∧
    isAsciiList c.chunk_type.bytes = true ∧
    12 + c.chunk_data.length ≤ b.length ∧
    b.take (12 + c.chunk_data.length) = c.as_bytes ∧
    (∀ x ∈ c.chunk_data, x < 256) := by
  simp only [Chunk.tryFrom] at h
  by_cases h1 : 4 ≤ b.length
  swap
  · rw [if_neg h1] at h
    exact absurd h (by simp)
  rw [if_pos h1] at h
  by_cases h2 : 4 ≤ (b.drop 4).length
  swap
  · rw [if_neg h2] at h
    exact absurd h (by simp)
  rw [if_pos h2] at h
  rcases hm : ChunkType.tryFrom ((b.drop 4).take 4) with e | tag
  · rw [hm] at h
    exact absurd h (by simp)
  rw [hm] at h
  simp only [] at h
  have htag : isAsciiList ((b.drop 4).take 4) = true ∧ tag = ⟨(b.drop 4).take 4⟩ := by
    by_cases ha : isAsciiList ((b.drop 4).take 4)
    · rw [ChunkType.tryFrom, if_pos ha] at hm
      injection hm with hm'
      exact ⟨ha, hm'.symm⟩
    · rw [ChunkType.tryFrom, if_neg ha] at hm
      exact absurd hm (by simp)
  obtain ⟨hta, htg⟩ := htag
  subst htg
  by_cases h3 : u32FromBe (b.take 4) ≤ ((b.drop 4).drop 4).length
  swap
  · rw [if_neg h3] at h
    exact absurd h (by simp)
  rw [if_pos h3] at h
  by_cases h4 : 4 ≤ (((b.drop 4).drop 4).drop (u32FromBe (b.take 4))).length
  swap
  · rw [if_neg h4] at h
    exact absurd h (by simp)
  rw [if_pos h4] at h
  have htk4 : (b.take 4).length = 4 := by
    rw [List.length_take]
    omega
  have htk4b : ∀ x ∈ b.take 4, x < 256 := fun x hx => hb x (List.take_subset _ _ hx)
  have hL : u32FromBe (b.take 4) < 2 ^ 32 := u32FromBe_lt htk4 htk4b
  have hdatalen : (((b.drop 4).drop 4).take (u32FromBe (b.take 4))).length =
      u32FromBe (b.take 4) := by
    rw [List.length_take]
    omega
  have hlenok : ¬((Chunk.new ⟨(b.drop 4).take 4⟩
      (((b.drop 4).drop 4).take (u32FromBe (b.take 4)))).length ≠ u32FromBe (b.take 4)) := by
    simp only [Chunk.new, hdatalen, ne_eq, not_not]
    exact Nat.mod_eq_of_lt hL
  rw [if_neg hlenok] at h
  by_cases h5 : (Chunk.new ⟨(b.drop 4).take 4⟩
      (((b.drop 4).drop 4).take (u32FromBe (b.take 4)))).crc =
      u32FromBe (((((b.drop 4).drop 4).drop (u32FromBe (b.take 4))).take 4))
  swap
  · rw [if_pos h5] at h
    exact absurd h (by simp)
  rw [if_neg (not_not_intro h5)] at h
  injection h with h'
  subst h'
  have hr2b : ∀ x ∈ (b.drop 4).drop 4, x < 256 :=
    fun x hx => hb x (List.drop_subset _ _ (List.drop_subset _ _ hx))
  have hdb : ∀ x ∈ ((b.drop 4).drop 4).take (u32FromBe (b.take 4)), x < 256 :=
    fun x hx => hr2b x (List.take_subset _ _ hx)
  have hcrcseg4 : (((((b.drop 4).drop 4).drop (u32FromBe (b.take 4))).take 4)).length = 4 := by
    rw [List.length_take]
    omega
  have hcrcsegb : ∀ x ∈ ((((b.drop 4).drop 4).drop (u32FromBe (b.take 4))).take 4), x < 256 :=
    fun x hx => hr2b x (List.drop_subset _ _ (List.take_subset _ _ hx))
  have htag4 : ((b.drop 4).take 4).length = 4 := by
    rw [List.length_take]
    omega
  have htagb : ∀ x ∈ (b.drop 4).take 4, x < 256 :=
    fun x hx => hb x (List.drop_subset _ _ (List.take_subset _ _ hx))
  have hcrc32eq : u32FromBe (((((b.drop 4).drop 4).drop (u32FromBe (b.take 4))).take 4)) =
      crc32 ((b.drop 4).take 4 ++ ((b.drop 4).drop 4).take (u32FromBe (b.take 4))) := by
    rw [← h5]
    simp [Chunk.new]
  refine ⟨by simpa using hdatalen.symm, by simpa only [hdatalen] using hL, by simpa using hcrc32eq, ?_, by simpa using htag4, by simpa using hta, ?_, ?_, by simpa using hdb⟩
  · simpa using u32FromBe_lt hcrcseg4 hcrcsegb
  · simp only [List.length_drop] at h3 h4 ⊢
    simp only [hdatalen]
    omega
  · simp only [hdatalen]
    have hsplit : (12 : Nat) + u32FromBe (b.take 4) = 4 + (4 + (u32FromBe (b.take 4) + 4)) := by
      omega
    rw [hsplit, List.take_add, List.take_add, List.take_add]
    simp only [Chunk.as_bytes]
    rw [u32ToBe_fromBe htk4 htk4b, u32ToBe_fromBe hcrcseg4 hcrcsegb]
    simp [List.append_assoc]

/-! ## Consequences of a successful parse -/

theorem isAsciiList_mem_lt {l : List Nat} (h : isAsciiList l = true) :
    ∀ x ∈ l, x < 256 := by
  intro x hx
  have := List.all_eq_true.mp h x hx
  simp only [decide_eq_true_eq] at this
  omega

theorem tryFrom_of_take_eq {b b₂ : List Nat} {c : Chunk}
    (hb : ∀ x ∈ b, x < 256) (h : Chunk.tryFrom b = .ok c)
    (h₂ : b₂.take (12 + c.chunk_data.length) = b.take (12 + c.chunk_data.length)) :
    Chunk.tryFrom b₂ = .ok c := by
  obtain ⟨hlen, hLlt, hcrc, hclt, ht4, hta, hble, hwin, hdb⟩ := tryFrom_ok_spec hb h
  have hb2 : b₂ = c.as_bytes ++ b₂.drop (12 + c.chunk_data.length) := by
    conv_lhs => rw [← List.take_append_drop (12 + c.chunk_data.length) b₂]
    rw [h₂, hwin]
  rw [hb2]
  have hshape : c.as_bytes ++ b₂.drop (12 + c.chunk_data.length) =
      u32ToBe c.chunk_data.length ++ (c.chunk_type.bytes ++
        (c.chunk_data ++ (u32ToBe c.crc ++ b₂.drop (12 + c.chunk_data.length)))) := by
    simp [Chunk.as_bytes, ← hlen, List.append_assoc]
  rw [hshape, tryFrom_layout c.chunk_type c.chunk_data c.crc _ ht4 hta hLlt hclt]
  rw [if_pos hcrc.symm]
  have hc : ({ length := c.chunk_data.length, chunk_type := c.chunk_type
             , chunk_data := c.chunk_data, crc := c.crc } : Chunk) = c := by
    rw [← hlen]
  rw [hc]

/-! ## Bit flips in payload or crc field -/

/-- Flip bit `k` (value `2 ^ k`) of the byte at index `i` of a buffer. -/
def flipBit (b : List Nat) (i k : Nat) : List Nat :=
  b.set i (b.getD i 0 ^^^ 2 ^ k)

theorem flipBit_append_right {p q : List Nat} {i k : Nat} (hp : p.length ≤ i) :
    flipBit (p ++ q) i k = p ++ flipBit q (i - p.length) k := by
  unfold flipBit
  rw [List.set_append_right _ _ hp]
  rw [List.getD_eq_getElem?_getD, List.getElem?_append_right hp,
    ← List.getD_eq_getElem?_getD]

theorem flipBit_append_left {p q : List Nat} {i k : Nat} (hp : i < p.length) :
    flipBit (p ++ q) i k = flipBit p i k ++ q := by
  unfold flipBit
  rw [List.set_append_left _ _ hp]
  rw [List.getD_eq_getElem?_getD, List.getElem?_append_left hp,
    ← List.getD_eq_getElem?_getD]

theorem flipBit_length (b : List Nat) (i k : Nat) : (flipBit b i k).length = b.length := by
  simp [flipBit]

theorem set_getD_ne {l : List Nat} {j k : Nat} (hj : j < l.length) :
    l.set j (l.getD j 0 ^^^ 2 ^ k) ≠ l := by
  intro he
  have h1 := congrArg (fun t => t.getD j 0) he
  simp only [] at h1
  rw [getD_eq_getElem (l := l.set j (l.getD j 0 ^^^ 2 ^ k)) (by simpa using hj),
    List.getElem_set_self] at h1
  exact xor_ne_self (Nat.two_pow_pos k).ne' h1

theorem tamper_detect {b : List Nat} {c : Chunk} {i k : Nat}
    (hb : ∀ x ∈ b, x < 256) (h : Chunk.tryFrom b = .ok c)
    (hi1 : 8 ≤ i) (hi2 : i < 12 + c.chunk_data.length) (hk : k < 8) :
    ∃ a f, Chunk.tryFrom (flipBit b i k) = .error (.invalidCrc a f) := by
  obtain ⟨hlen, hLlt, hcrc, hclt, ht4, hta, hble, hwin, hdb⟩ := tryFrom_ok_spec hb h
  have hTlt : ∀ x ∈ c.chunk_type.bytes, x < 2 ^ 32 :=
    fun x hx => lt_trans (isAsciiList_mem_lt hta x hx) (by norm_num)
  have hDlt : ∀ x ∈ c.chunk_data, x < 2 ^ 32 :=
    fun x hx => lt_trans (hdb x hx) (by norm_num)
  have h8 : (u32ToBe c.length ++ c.chunk_type.bytes).length = 8 := by
    simp [u32ToBe_length, ht4]
  rcases Nat.lt_or_ge i (8 + c.chunk_data.length) with hcase | hcase
  · -- the flipped byte lies in the payload region
    have hbeqP : b = (u32ToBe c.length ++ c.chunk_type.bytes) ++
        (c.chunk_data ++ (u32ToBe c.crc ++ b.drop (12 + c.chunk_data.length))) := by
      conv_lhs => rw [← List.take_append_drop (12 + c.chunk_data.length) b]
      rw [hwin]
      simp [Chunk.as_bytes, List.append_assoc]
    rw [hbeqP, flipBit_append_right (by omega), h8,
      flipBit_append_left (by omega)]
    have hlen' : c.length = (flipBit c.chunk_data (i - 8) k).length := by
      rw [flipBit_length]
      exact hlen
    rw [show (u32ToBe c.length ++ c.chunk_type.bytes) ++
        ((flipBit c.chunk_data (i - 8) k ++ (u32ToBe c.crc ++ b.drop (12 + c.chunk_data.length)))) =
        u32ToBe c.length ++ (c.chunk_type.bytes ++
          (flipBit c.chunk_data (i - 8) k ++ (u32ToBe c.crc ++ b.drop (12 + c.chunk_data.length)))) from by
      simp [List.append_assoc]]
    rw [hlen']
    rw [tryFrom_layout c.chunk_type _ c.crc _ ht4 hta (by rw [flipBit_length]; exact hLlt) hclt]
    have hneq : crc32 (c.chunk_type.bytes ++ flipBit c.chunk_data (i - 8) k) ≠ c.crc := by
      rw [hcrc]
      have hj : i - 8 < c.chunk_data.length := by omega
      have hvlt : c.chunk_data.getD (i - 8) 0 ^^^ 2 ^ k < 2 ^ 32 := by
        refine lt_trans (Nat.xor_lt_two_pow (n := 8) ?_ ?_) (by norm_num)
        · rw [getD_eq_getElem hj]
          exact hdb _ (List.getElem_mem hj)
        · have : (2 : Nat) ^ k ≤ 2 ^ 7 := Nat.pow_le_pow_right (by norm_num) (by omega)
          omega
      have hvne : c.chunk_data.getD (i - 8) 0 ^^^ 2 ^ k ≠ c.chunk_data[i - 8] := by
        rw [getD_eq_getElem hj]
        exact xor_ne_self (Nat.two_pow_pos k).ne'
      exact crc32_ne_set hj hTlt hDlt hvlt hvne
    rw [if_neg hneq]
    exact ⟨_, _, rfl⟩
  · -- the flipped byte lies in the trailing crc field
    have hbeqC : b = ((u32ToBe c.length ++ c.chunk_type.bytes) ++ c.chunk_data) ++
        (u32ToBe c.crc ++ b.drop (12 + c.chunk_data.length)) := by
      conv_lhs => rw [← List.take_append_drop (12 + c.chunk_data.length) b]
      rw [hwin]
      simp [Chunk.as_bytes, List.append_assoc]
    have h8L : ((u32ToBe c.length ++ c.chunk_type.bytes) ++ c.chunk_data).length =
        8 + c.chunk_data.length := by
      rw [List.length_append, h8]
    rw [hbeqC, flipBit_append_right (by omega), h8L,
      flipBit_append_left (by rw [u32ToBe_length]; omega)]
    have hCB4 : (flipBit (u32ToBe c.crc) (i - (8 + c.chunk_data.length)) k).length = 4 := by
      rw [flipBit_length, u32ToBe_length]
    have hCBb : ∀ x ∈ flipBit (u32ToBe c.crc) (i - (8 + c.chunk_data.length)) k, x < 256 := by
      intro x hx
      unfold flipBit at hx
      rcases List.mem_or_eq_of_mem_set hx with hx | hx
      · exact u32ToBe_mem_lt _ x hx
      · subst hx
        have hj4 : i - (8 + c.chunk_data.length) < (u32ToBe c.crc).length := by
          rw [u32ToBe_length]
          omega
        refine Nat.xor_lt_two_pow (n := 8) ?_ ?_
        · rw [getD_eq_getElem hj4]
          exact u32ToBe_mem_lt _ _ (List.getElem_mem hj4)
        · have : (2 : Nat) ^ k ≤ 2 ^ 7 := Nat.pow_le_pow_right (by norm_num) (by omega)
          omega
    have hto : u32ToBe (u32FromBe (flipBit (u32ToBe c.crc) (i - (8 + c.chunk_data.length)) k)) =
        flipBit (u32ToBe c.crc) (i - (8 + c.chunk_data.length)) k :=
      u32ToBe_fromBe hCB4 hCBb
    have hwne : u32FromBe (flipBit (u32ToBe c.crc) (i - (8 + c.chunk_data.length)) k) ≠ c.crc := by
      intro he
      have hflip : flipBit (u32ToBe c.crc) (i - (8 + c.chunk_data.length)) k = u32ToBe c.crc := by
        rw [← hto, he]
      have hj4 : i - (8 + c.chunk_data.length) < (u32ToBe c.crc).length := by
        rw [u32ToBe_length]
        omega
      exact set_getD_ne hj4 hflip
    rw [show ((u32ToBe c.length ++ c.chunk_type.bytes) ++ c.chunk_data) ++
        (flipBit (u32ToBe c.crc) (i - (8 + c.chunk_data.length)) k ++
          b.drop (12 + c.chunk_data.length)) =
        u32ToBe c.length ++ (c.chunk_type.bytes ++ (c.chunk_data ++
          (flipBit (u32ToBe c.crc) (i - (8 + c.chunk_data.length)) k ++
            b.drop (12 + c.chunk_data.length)))) from by
      simp [List.append_assoc]]
    rw [hlen, ← hto]
    rw [tryFrom_layout c.chunk_type c.chunk_data _ _ ht4 hta hLlt
      (u32FromBe_lt hCB4 hCBb)]
    have hneq : crc32 (c.chunk_type.bytes ++ c.chunk_data) ≠
        u32FromBe (flipBit (u32ToBe c.crc) (i - (8 + c.chunk_data.length)) k) := by
      intro he
      exact hwne (by rw [← he, ← hcrc])
    rw [if_neg hneq]
    exact ⟨_, _, rfl⟩

/-! ## Round-trip and remaining helpers -/

theorem utf8Decode_ascii {l : List Nat} (h : ∀ x ∈ l, x < 0x80) :
    utf8Decode l = some l := by
  induction l with
  | nil => simp [utf8Decode]
  | cons b rest ih =>
    have hb : b < 0x80 := h b (by simp)
    have hstep : utf8DecodeStep (b :: rest) = some (b, rest) := by
      simp [utf8DecodeStep, hb]
    rw [utf8Decode]
    split
    · rename_i heq
      rw [hstep] at heq
      simp at heq
    · rename_i cp r heq
      rw [hstep] at heq
      simp only [Option.some.injEq, Prod.mk.injEq] at heq
      obtain ⟨hcp, hr⟩ := heq
      subst hcp
      subst hr
      rw [ih (fun x hx => h x (by simp [hx]))]
      rfl

/-- Decidable test: the byte is an ASCII letter. -/
def isAsciiLetter (b : Nat) : Bool :=
  (65 ≤ b && b ≤ 90) || (97 ≤ b && b ≤ 122)

/-- Swap the case of an ASCII letter byte (xor with `0x20`). -/
def caseFlip (b : Nat) : Nat := b ^^^ 32

theorem caseFlip_letter : ∀ b, b < 128 → isAsciiLetter b = true →
    ((65 ≤ caseFlip b && caseFlip b ≤ 90) = !(65 ≤ b && b ≤ 90) ∧
     (97 ≤ caseFlip b && caseFlip b ≤ 122) = !(97 ≤ b && b ≤ 122)) := by
  decide

theorem isAsciiLetter_lt {b : Nat} (h : isAsciiLetter b = true) : b < 128 := by
  simp only [isAsciiLetter, Bool.or_eq_true, Bool.and_eq_true, decide_eq_true_eq] at h
  omega

/-- The four case-derived tag properties, indexed by byte position. -/
def propAt (t : ChunkType) : Nat → Bool
  | 0 => t.is_critical
  | 1 => t.is_public
  | 2 => t.is_reserved_bit_valid
  | 3 => t.is_safe_to_copy
  | _ => false

/-- Payload of the spec's concrete scenario: the ASCII bytes of
"This is where your secret message will be!". -/
def msgBytes : List Nat :=
  "This is where your secret message will be!".data.map Char.toNat

/-! ## Claim C1 -/

/-- C1: for every Chunk in existence (fresh or parsed), the stored crc is
CRC-32 of tag bytes ++ payload; the stored length is the payload byte count
reduced modulo `2 ^ 32` (amended: the Rust `as u32` cast truncates payload
byte counts of `2 ^ 32` or more; for parsed chunks the two agree exactly). -/
theorem chunk_invariant :
    (∀ (t : ChunkType) (d : List Nat),
      (Chunk.new t d).length = d.length % 2 ^ 32 ∧
      (Chunk.new t d).crc = crc32 (t.bytes ++ d)) ∧
    (∀ (b : List Nat) (c : Chunk), (∀ x ∈ b, x < 256) → Chunk.tryFrom b = .ok c →
      c.length = c.chunk_data.length ∧
      c.crc = crc32 (c.chunk_type.bytes ++ c.chunk_data)) :=
  ⟨fun _ _ => ⟨rfl, rfl⟩,
   fun _ _ hb h => ⟨(tryFrom_ok_spec hb h).1, (tryFrom_ok_spec hb h).2.2.1⟩⟩

/-- C1 counterexample: a fresh chunk built from a `2 ^ 32`-byte payload
stores length `0`, not the payload byte count. -/
theorem chunk_invariant_counterexample :
    (Chunk.new ⟨[82, 117, 83, 116]⟩ (List.replicate (2 ^ 32) 0)).length ≠
      (List.replicate (2 ^ 32) 0).length := by
  simp only [Chunk.new, List.length_replicate, Nat.mod_self, ne_eq]
  omega

/-- C1 witness: the parsed-chunk part of the invariant at a concrete buffer. -/
theorem chunk_invariant_witness :
    (⟨1, ⟨[82, 117, 83, 116]⟩, [37], 3065889604⟩ : Chunk).length =
      (⟨1, ⟨[82, 117, 83, 116]⟩, [37], 3065889604⟩ : Chunk).chunk_data.length ∧
    (⟨1, ⟨[82, 117, 83, 116]⟩, [37], 3065889604⟩ : Chunk).crc =
      crc32 ((⟨1, ⟨[82, 117, 83, 116]⟩, [37], 3065889604⟩ : Chunk).chunk_type.bytes ++
        (⟨1, ⟨[82, 117, 83, 116]⟩, [37], 3065889604⟩ : Chunk).chunk_data) :=
  chunk_invariant.2 [0, 0, 0, 1, 82, 117, 83, 116, 37, 182, 189, 195, 68] _
    (by decide) (by rfl)

/-! ## Claim C2 -/

/-- C2 (amended: payload shorter than `2 ^ 32` bytes): parsing the
serialization of a freshly constructed chunk succeeds and returns a chunk
equal to it in every field. -/
theorem new_roundtrip (t : ChunkType) (d : List Nat)
    (ht4 : t.bytes.length = 4) (hta : isAsciiList t.bytes = true)
    (hd : d.length < 2 ^ 32) (hdb : ∀ x ∈ d, x < 256) :
    Chunk.tryFrom (Chunk.new t d).as_bytes = .ok (Chunk.new t d) := by
  have hcb : ∀ x ∈ t.bytes ++ d, x < 256 := by
    intro x hx
    rcases List.mem_append.mp hx with hx | hx
    · exact isAsciiList_mem_lt hta x hx
    · exact hdb x hx
  have hshape : (Chunk.new t d).as_bytes =
      u32ToBe d.length ++ (t.bytes ++ (d ++ (u32ToBe (crc32 (t.bytes ++ d)) ++ []))) := by
    simp [Chunk.as_bytes, Chunk.new, List.append_assoc]
    rw [Nat.mod_eq_of_lt (by omega)]
  rw [hshape, tryFrom_layout t d _ [] ht4 hta hd (crc32_lt hcb), if_pos rfl]
  simp only [Chunk.new, Except.ok.injEq, Chunk.mk.injEq]
  exact ⟨by omega, trivial, trivial, trivial⟩

/-- C2 witness: the round-trip at a concrete tag and payload. -/
theorem new_roundtrip_witness :
    Chunk.tryFrom (Chunk.new ⟨[82, 117, 83, 116]⟩ [37]).as_bytes =
      .ok (Chunk.new ⟨[82, 117, 83, 116]⟩ [37]) :=
  new_roundtrip ⟨[82, 117, 83, 116]⟩ [37] (by rfl) (by rfl) (by decide) (by decide)

/-- Unfolding of the serialization of a fresh chunk, stated at abstract
arguments so that rewriting with it never forces evaluation of a huge
payload. -/
theorem as_bytes_new (t : ChunkType) (d : List Nat) :
    (Chunk.new t d).as_bytes =
      u32ToBe (d.length % 2 ^ 32) ++ (t.bytes ++ (d ++ u32ToBe (crc32 (t.bytes ++ d)))) := by
  simp [Chunk.as_bytes, Chunk.new, List.append_assoc]

/-- The first four zeros of a zero block are exactly the big-endian
encoding of 0. -/
theorem replicate_split (R : List Nat) :
    (List.replicate 4 0 ++ List.replicate (2 ^ 32 - 4) (0 : Nat)) ++ R =
      u32ToBe 0 ++ (List.replicate (2 ^ 32 - 4) 0 ++ R) := by
  rw [List.append_assoc]
  congr 1

/-- Specialization of `tryFrom_layout` to an empty payload. -/
theorem tryFrom_layout_nil (t : ChunkType) (w : Nat) (extra : List Nat)
    (ht4 : t.bytes.length = 4) (hta : isAsciiList t.bytes = true) (hw : w < 2 ^ 32) :
    Chunk.tryFrom (u32ToBe 0 ++ (t.bytes ++ (u32ToBe w ++ extra))) =
      if crc32 t.bytes = w then
        .ok { length := 0, chunk_type := t, chunk_data := [], crc := w }
      else .error (.invalidCrc (crc32 t.bytes) w) := by
  have h := tryFrom_layout t [] w extra ht4 hta (by decide) hw
  simpa using h

/-- C2 counterexample: with a `2 ^ 32`-byte payload the length field wraps
to 0, so parsing the serialization reads an empty payload and fails the crc
check instead of succeeding. -/
theorem new_roundtrip_counterexample :
    Chunk.tryFrom ((Chunk.new ⟨[82, 117, 83, 116]⟩ (List.replicate (2 ^ 32) 0)).as_bytes) =
      .error (.invalidCrc 3565422908 0) := by
  have hrep : (List.replicate (2 ^ 32) (0 : Nat)) =
      List.replicate 4 0 ++ List.replicate (2 ^ 32 - 4) 0 := by
    rw [← List.replicate_add]
    congr 1
  rw [as_bytes_new]
  rw [List.length_replicate, Nat.mod_self]
  rw [hrep]
  rw [replicate_split]
  rw [tryFrom_layout_nil ⟨[82, 117, 83, 116]⟩ 0 _ rfl rfl (by decide)]
  rw [if_neg (by decide)]
  rfl

/-! ## Claim C3 -/

/-- C3: for a byte sequence that parses successfully, serializing the
result reproduces exactly the consumed prefix of length
`4 + 4 + declaredLength + 4`, and the parse result depends only on that
prefix (trailing bytes are ignored). -/
theorem parse_consumed_window {b : List Nat} {c : Chunk}
    (hb : ∀ x ∈ b, x < 256) (h : Chunk.tryFrom b = .ok c) :
    c.as_bytes = b.take (12 + c.chunk_data.length) ∧
    ∀ b₂ : List Nat, b₂.take (12 + c.chunk_data.length) = b.take (12 + c.chunk_data.length) →
      Chunk.tryFrom b₂ = .ok c := by
  obtain ⟨-, -, -, -, -, -, -, hwin, -⟩ := tryFrom_ok_spec hb h
  exact ⟨hwin.symm, fun b₂ h₂ => tryFrom_of_take_eq hb h h₂⟩

/-- C3 witness: a concrete parse with two trailing garbage bytes; the
serialization equals the 13-byte consumed prefix, and replacing the
trailing bytes does not change the parse result. -/
theorem parse_consumed_window_witness :
    ((⟨1, ⟨[82, 117, 83, 116]⟩, [37], 3065889604⟩ : Chunk).as_bytes =
      ([0, 0, 0, 1, 82, 117, 83, 116, 37, 182, 189, 195, 68, 9, 9] : List Nat).take
        (12 + (⟨1, ⟨[82, 117, 83, 116]⟩, [37], 3065889604⟩ : Chunk).chunk_data.length)) ∧
    Chunk.tryFrom [0, 0, 0, 1, 82, 117, 83, 116, 37, 182, 189, 195, 68, 7] =
      .ok ⟨1, ⟨[82, 117, 83, 116]⟩, [37], 3065889604⟩ := by
  have h := parse_consumed_window
    (b := [0, 0, 0, 1, 82, 117, 83, 116, 37, 182, 189, 195, 68, 9, 9])
    (c := ⟨1, ⟨[82, 117, 83, 116]⟩, [37], 3065889604⟩) (by decide) (by rfl)
  exact ⟨h.1, h.2 _ (by rfl)⟩

/-! ## Claim C4 -/

/-- C4 counterexample: the scenario payload is 42 bytes, so the length of
the constructed chunk is 42, not 44. -/
theorem scenario_rust_chunk_counterexample :
    (Chunk.new ⟨[82, 117, 83, 116]⟩ msgBytes).length ≠ 44 := by
  decide

/-- C4 (amended: length 42): the chunk built from tag "RuSt" and the
42-byte scenario payload has length 42 and crc 2882656334. -/
theorem scenario_rust_chunk :
    (Chunk.new ⟨[82, 117, 83, 116]⟩ msgBytes).length = 42 ∧
    (Chunk.new ⟨[82, 117, 83, 116]⟩ msgBytes).crc = 2882656334 :=
  ⟨by decide, by decide⟩

/-! ## Claim C5 -/

/-- C5 witness: flipping bit 0 of the payload byte of a concrete valid
buffer makes the parse fail with InvalidCrc. -/
theorem tamper_detect_witness :
    ∃ a f, Chunk.tryFrom
        (flipBit [0, 0, 0, 1, 82, 117, 83, 116, 37, 182, 189, 195, 68] 8 0) =
      .error (.invalidCrc a f) :=
  tamper_detect (b := [0, 0, 0, 1, 82, 117, 83, 116, 37, 182, 189, 195, 68])
    (c := ⟨1, ⟨[82, 117, 83, 116]⟩, [37], 3065889604⟩)
    (by decide) (by rfl) (by decide) (by decide) (by decide)

/-! ## Claim C6 -/

/-- C6: on byte input, chunk parsing never fails with the chunk-level
InvalidLength error — the defensive length check is unreachable. -/
theorem no_chunk_invalid_length {b : List Nat} (hb : ∀ x ∈ b, x < 256) :
    ∀ a f, Chunk.tryFrom b ≠ .error (.invalidLength a f) := by
  intro a f h
  simp only [Chunk.tryFrom] at h
  by_cases h1 : 4 ≤ b.length
  swap
  · rw [if_neg h1] at h
    simp at h
  rw [if_pos h1] at h
  by_cases h2 : 4 ≤ (b.drop 4).length
  swap
  · rw [if_neg h2] at h
    simp at h
  rw [if_pos h2] at h
  rcases hm : ChunkType.tryFrom ((b.drop 4).take 4) with e | tag
  · rw [hm] at h
    have he : e = PngError.invalidEncoding := by
      by_cases ha : isAsciiList ((b.drop 4).take 4)
      · rw [ChunkType.tryFrom, if_pos ha] at hm
        simp at hm
      · rw [ChunkType.tryFrom, if_neg ha] at hm
        injection hm with hm'
        exact hm'.symm
    subst he
    simp at h
  rw [hm] at h
  simp only [] at h
  by_cases h3 : u32FromBe (b.take 4) ≤ ((b.drop 4).drop 4).length
  swap
  · rw [if_neg h3] at h
    simp at h
  rw [if_pos h3] at h
  by_cases h4 : 4 ≤ (((b.drop 4).drop 4).drop (u32FromBe (b.take 4))).length
  swap
  · rw [if_neg h4] at h
    simp at h
  rw [if_pos h4] at h
  have htk4 : (b.take 4).length = 4 := by
    rw [List.length_take]
    omega
  have hL : u32FromBe (b.take 4) < 2 ^ 32 :=
    u32FromBe_lt htk4 (fun x hx => hb x (List.take_subset _ _ hx))
  have hdatalen : (((b.drop 4).drop 4).take (u32FromBe (b.take 4))).length =
      u32FromBe (b.take 4) := by
    rw [List.length_take]
    omega
  have hlenok : ¬((Chunk.new tag (((b.drop 4).drop 4).take (u32FromBe (b.take 4)))).length ≠
      u32FromBe (b.take 4)) := by
    simp only [Chunk.new, hdatalen, ne_eq, not_not]
    exact Nat.mod_eq_of_lt hL
  rw [if_neg hlenok] at h
  by_cases h5 : (Chunk.new tag (((b.drop 4).drop 4).take (u32FromBe (b.take 4)))).crc =
      u32FromBe ((((b.drop 4).drop 4).drop (u32FromBe (b.take 4))).take 4)
  · rw [if_neg (not_not_intro h5)] at h
    simp at h
  · rw [if_pos h5] at h
    simp at h

/-- C6 witness: the unreachability statement at a concrete input. -/
theorem no_chunk_invalid_length_witness :
    Chunk.tryFrom [5] ≠ .error (.invalidLength 3 7) :=
  no_chunk_invalid_length (by decide) 3 7

/-! ## Claim C7 -/

/-- C7: for a valid tag, replacing the letter byte at position `i` by its
case-flipped counterpart toggles exactly the property associated with
position `i` and leaves the other three properties unchanged. -/
theorem caseFlip_toggles {t : ChunkType} {i : Nat}
    (ht4 : t.bytes.length = 4) (hta : isAsciiList t.bytes = true)
    (hi : i < 4) (hl : isAsciiLetter (t.bytes.getD i 0) = true) :
    propAt ⟨t.bytes.set i (caseFlip (t.bytes.getD i 0))⟩ i = !propAt t i ∧
    (∀ j, j < 4 → j ≠ i →
      propAt ⟨t.bytes.set i (caseFlip (t.bytes.getD i 0))⟩ j = propAt t j) := by
  obtain ⟨bs⟩ := t
  obtain ⟨a, b, c, d, rfl⟩ := exists_four bs ht4
  interval_cases i
  · refine ⟨(caseFlip_letter a (isAsciiLetter_lt hl) hl).1, ?_⟩
    intro j hj hne
    interval_cases j
    · exact absurd rfl hne
    · rfl
    · rfl
    · rfl
  · refine ⟨(caseFlip_letter b (isAsciiLetter_lt hl) hl).1, ?_⟩
    intro j hj hne
    interval_cases j
    · rfl
    · exact absurd rfl hne
    · rfl
    · rfl
  · refine ⟨(caseFlip_letter c (isAsciiLetter_lt hl) hl).1, ?_⟩
    intro j hj hne
    interval_cases j
    · rfl
    · rfl
    · exact absurd rfl hne
    · rfl
  · refine ⟨(caseFlip_letter d (isAsciiLetter_lt hl) hl).2, ?_⟩
    intro j hj hne
    interval_cases j
    · rfl
    · rfl
    · rfl
    · exact absurd rfl hne

/-- C7 witness: flipping the case of byte 0 of "RuSt" toggles critical and
keeps the other three properties. -/
theorem caseFlip_toggles_witness :
    (propAt ⟨((⟨[82, 117, 83, 116]⟩ : ChunkType)).bytes.set 0
        (caseFlip ((⟨[82, 117, 83, 116]⟩ : ChunkType).bytes.getD 0 0))⟩ 0 =
      !propAt ⟨[82, 117, 83, 116]⟩ 0) ∧
    propAt ⟨((⟨[82, 117, 83, 116]⟩ : ChunkType)).bytes.set 0
        (caseFlip ((⟨[82, 117, 83, 116]⟩ : ChunkType).bytes.getD 0 0))⟩ 3 =
      propAt ⟨[82, 117, 83, 116]⟩ 3 := by
  have h := caseFlip_toggles (t := ⟨[82, 117, 83, 116]⟩) (i := 0)
    (by rfl) (by rfl) (by decide) (by rfl)
  exact ⟨h.1, h.2 3 (by decide) (by decide)⟩

/-! ## Claim C8 -/

/-- C8: textual tag construction fails with InvalidLength carrying the
byte length whenever it is not 4; at length 4 it fails with
InvalidEncoding when some byte is `≥ 0x80`, and otherwise succeeds,
wrapping the bytes unchanged. -/
theorem fromStr_spec (s : List Nat) :
    (s.length ≠ 4 → ChunkType.fromStr s = .error (.tagInvalidLength s.length)) ∧
    (s.length = 4 → (∃ x ∈ s, 0x80 ≤ x) → ChunkType.fromStr s = .error .invalidEncoding) ∧
    (s.length = 4 → (∀ x ∈ s, x < 0x80) → ChunkType.fromStr s = .ok ⟨s⟩) := by
  refine ⟨fun h => ?_, fun h4 hex => ?_, fun h4 hall => ?_⟩
  · rw [ChunkType.fromStr, if_neg h]
  · have hcond : ¬(isAsciiList s = true) := by
      simp only [isAsciiList, List.all_eq_true, not_forall]
      obtain ⟨x, hx, hge⟩ := hex
      refine ⟨x, hx, ?_⟩
      simp only [decide_eq_true_eq]
      omega
    rw [ChunkType.fromStr, if_pos h4, ChunkType.tryFrom, if_neg hcond]
  · have hcond : isAsciiList s = true := by
      simp only [isAsciiList, List.all_eq_true]
      intro x hx
      have := hall x hx
      simp only [decide_eq_true_eq]
      omega
    rw [ChunkType.fromStr, if_pos h4, ChunkType.tryFrom, if_pos hcond]

/-- C8 witness: a 5-byte string fails with InvalidLength 5; a 4-byte
string with a non-ASCII byte fails with InvalidEncoding; "RuSt" succeeds. -/
theorem fromStr_spec_witness :
    ChunkType.fromStr [82, 117, 83, 116, 116] = .error (.tagInvalidLength 5) ∧
    ChunkType.fromStr [82, 200, 83, 116] = .error .invalidEncoding ∧
    ChunkType.fromStr [82, 117, 83, 116] = .ok ⟨[82, 117, 83, 116]⟩ :=
  ⟨(fromStr_spec _).1 (by decide),
   (fromStr_spec _).2.1 (by decide) ⟨200, by decide, by decide⟩,
   (fromStr_spec _).2.2 (by decide) (by decide)⟩

/-! ## Claim C9 -/

/-- C9: rendering a valid (all-ASCII) tag never takes the
replacement-character fallback: decoding succeeds and reproduces the 4
original characters. -/
theorem render_ascii {t : ChunkType} (ht4 : t.bytes.length = 4)
    (hta : isAsciiList t.bytes = true) :
    t.render = t.bytes ∧ utf8Decode t.bytes ≠ none := by
  have hd : utf8Decode t.bytes = some t.bytes :=
    utf8Decode_ascii (fun x hx => by
      have := List.all_eq_true.mp hta x hx
      simp only [decide_eq_true_eq] at this
      omega)
  refine ⟨?_, by rw [hd]; simp⟩
  simp [ChunkType.render, hd]

/-- C9 witness: rendering the tag "RuSt". -/
theorem render_ascii_witness :
    (⟨[82, 117, 83, 116]⟩ : ChunkType).render = (⟨[82, 117, 83, 116]⟩ : ChunkType).bytes ∧
    utf8Decode (⟨[82, 117, 83, 116]⟩ : ChunkType).bytes ≠ none :=
  render_ascii (by rfl) (by rfl)

/-! ## Claim C10 -/

/-- C10: for chunks built by `new` (with a 4-byte tag) or obtained from a
successful parse, the serialization has length `12 +` the payload length. -/
theorem as_bytes_total_length :
    (∀ (t : ChunkType) (d : List Nat), t.bytes.length = 4 →
      (Chunk.new t d).as_bytes.length = 12 + d.length) ∧
    (∀ (b : List Nat) (c : Chunk), (∀ x ∈ b, x < 256) → Chunk.tryFrom b = .ok c →
      c.as_bytes.length = 12 + c.chunk_data.length) := by
  constructor
  · intro t d ht4
    simp [Chunk.as_bytes, Chunk.new, u32ToBe, ht4]
    omega
  · intro b c hb h
    obtain ⟨-, -, -, -, ht4, -, -, -, -⟩ := tryFrom_ok_spec hb h
    simp [Chunk.as_bytes, u32ToBe, ht4]
    omega

/-- C10 witness: the serialized length of a concrete one-byte-payload chunk. -/
theorem as_bytes_total_length_witness :
    (Chunk.new ⟨[82, 117, 83, 116]⟩ [37]).as_bytes.length = 12 + [37].length :=
  as_bytes_total_length.1 ⟨[82, 117, 83, 116]⟩ [37] (by rfl)

end Pngme
